import Mathlib

/-!
Shallow embedding of the kalisi graph import/export/load scripts.

Sources embedded here:
- src/source/scripts/import_neo4j.py       (namespace ImportNeo4j)
- src/source/codebase-analyzer/scripts/load_codebase_fast.py (namespace LoadCodebase)
- src/source/scripts/export_neo4j.py       (namespace ExportNeo4j)

The Neo4j store is modelled explicitly: a store is a list of nodes (label
set plus property map) and a list of relationships (endpoint indices into
the node list, a type tag and a property map).  Cypher MERGE on a node
pattern matches every node carrying all the pattern labels and the pattern
property; on a relationship pattern it matches per (start, end) row.  SET
x += m overwrites the listed keys and keeps the rest.  Property maps are
insertion-ordered association lists, matching Python dict semantics.
-/

namespace ImportNeo4j

/-- Property maps: insertion-ordered association lists from string keys to
string-modelled values (the scripts treat property values opaquely). -/
abbrev Props := List (String × String)

/-- Lookup of a key, first entry wins (Python dicts hold each key once;
setProp keeps that canonical form). -/
def lookupProp (m : Props) (k : String) : Option String :=
  (m.find? (fun kv => kv.1 == k)).map (fun kv => kv.2)

/-- Python d[k] = v: overwrite the entry in place when the key is present,
else append it. -/
def setProp (m : Props) (k : String) (v : String) : Props :=
  if m.any (fun kv => kv.1 == k) then
    m.map (fun kv => if kv.1 == k then (k, v) else kv)
  else
    m ++ [(k, v)]

/-- Python d.setdefault(k, v). -/
def setDefaultProp (m : Props) (k : String) (v : String) : Props :=
  if m.any (fun kv => kv.1 == k) then m else m ++ [(k, v)]

/-- Cypher SET x += m: fold the update map over the store map, overwriting
key by key in order. -/
def updProps (m : Props) (p : Props) : Props :=
  p.foldl (fun acc kv => setProp acc kv.1 kv.2) m

/-- ensure_list from import_neo4j.py restricted to the JSON shapes that
the import payload uses (absent or a list of strings); falsy entries are
dropped. -/
def ensure_list (v : Option (List String)) : List String :=
  match v with
  | some l => l.filter (fun s => s ≠ "")
  | none => []

/-- Node record of the idempotent import payload. -/
structure NodePayload where
  GUID : Option String
  labels : Option (List String)
  properties : Props
  neo4jId : Option String
deriving DecidableEq, Repr

/-- Edge record of the idempotent import payload. -/
structure EdgePayload where
  GUID : Option String
  type : Option String
  fromGUID : Option String
  toGUID : Option String
  properties : Props
  neo4jId : Option String
deriving DecidableEq, Repr

/-- A node persisted in the store: its label set and property map. -/
structure StoreNode where
  labels : List String
  props : Props
deriving DecidableEq, Repr

/-- A relationship persisted in the store: endpoints are indices into the
node list (node identity), plus the type tag and property map. -/
structure StoreRel where
  src : Nat
  tgt : Nat
  type : String
  props : Props
deriving DecidableEq, Repr

/-- The property-graph store. -/
structure Store where
  nodes : List StoreNode
  rels : List StoreRel
deriving DecidableEq, Repr

/-- The empty store. -/
def emptyStore : Store := ⟨[], []⟩

/-- Lexicographic string order as a computable Boolean: x comes no later
than y exactly when y is not strictly below x (the comparison Python
sorted uses). -/
def strLe (x y : String) : Bool :=
  !(@decide (@LT.lt String String.instLT y x) (String.decLt y x))

/-- Insertion of one string into an ascending list. -/
def insortStr (x : String) : List String → List String
  | [] => [x]
  | y :: ys => if strLe x y then x :: y :: ys else y :: insortStr x ys

/-- Ascending sort, modelling Python sorted on strings. -/
def sortStr (l : List String) : List String := l.foldr insortStr []

/-- Python set(...) materialised as a first-occurrence-kept list (the
result is only used sorted, so iteration order is irrelevant). -/
def pySet (l : List String) : List String :=
  l.foldl (fun acc x => if x ∈ acc then acc else acc ++ [x]) []

/-- Label list computed by merge_node: declared labels, the Imported
marker appended, falsy entries dropped, deduplicated and sorted. -/
def nodeLabels (p : NodePayload) : List String :=
  sortStr (pySet ((ensure_list p.labels ++ ["Imported"]).filter (fun s => s ≠ "")))

/-- Labels appearing in the MERGE pattern: merge_node falls back to the
bare Imported label when the label list is empty. -/
def patternLabels (p : NodePayload) : List String :=
  if nodeLabels p = [] then ["Imported"] else nodeLabels p

/-- Top-level GUID of a node payload as merge_node reads it (main has
already checked presence). -/
def nodeGuid (p : NodePayload) : String := p.GUID.getD ""

/-- Property map merge_node passes to SET n += $props: a copy of the
payload properties with GUID overwritten by the top-level identifier and
the legacy id preserved via setdefault when the payload carried one. -/
def buildNodeProps (p : NodePayload) : Props :=
  let pr := setProp p.properties "GUID" (nodeGuid p)
  match p.neo4jId with
  | some legacy => setDefaultProp pr "legacyNeo4jId" legacy
  | none => pr

/-- Whether a store node is matched by the MERGE pattern of merge_node:
it must carry every pattern label and have GUID property g. -/
def nodeMatches (L : List String) (g : String) (n : StoreNode) : Bool :=
  L.all (fun l => n.labels.contains l) && (lookupProp n.props "GUID" == some g)

/-- merge_node from import_neo4j.py: MERGE (n:labels {GUID: $guid})
SET n += $props.  When the pattern matches, every matched node is updated;
otherwise one node with exactly the pattern labels and pattern property is
created and then updated. -/
def merge_node (st : Store) (p : NodePayload) : Store :=
  let L := patternLabels p
  let g := nodeGuid p
  let pr := buildNodeProps p
  if st.nodes.any (nodeMatches L g) then
    { st with nodes := st.nodes.map (fun n =>
        if nodeMatches L g n then { n with props := updProps n.props pr } else n) }
  else
    { st with nodes := st.nodes ++ [⟨L, updProps [("GUID", g)] pr⟩] }

/-- Relationship type of an import edge: the declared type unless absent
or empty, in which case the RELATED_TO fallback is used. -/
def relTypeOf (e : EdgePayload) : String :=
  match e.type with
  | some t => if t = "" then "RELATED_TO" else t
  | none => "RELATED_TO"

/-- Property map merge_relationship passes to SET rel += $props. -/
def buildRelProps (e : EdgePayload) (g f t : String) : Props :=
  let pr := setProp e.properties "GUID" g
  let pr := setDefaultProp pr "fromGUID" f
  let pr := setDefaultProp pr "toGUID" t
  match e.neo4jId with
  | some legacy => setDefaultProp pr "legacyNeo4jId" legacy
  | none => pr

/-- GUID property of each store node, in node order; the MATCH clauses of
merge_relationship select nodes by this value alone. -/
def guidProps (nodes : List StoreNode) : List (Option String) :=
  nodes.map (fun n => lookupProp n.props "GUID")

/-- Indices of the nodes whose GUID property equals g. -/
def guidIdxs (nodes : List StoreNode) (g : String) : List Nat :=
  (List.range nodes.length).filter
    (fun i => (guidProps nodes).get? i == some (some g))

/-- Row set of MATCH (start {GUID: $from}) MATCH (end {GUID: $to}):
all start-major pairs of matching node indices. -/
def rowsOf (nodes : List StoreNode) (f t : String) : List (Nat × Nat) :=
  (guidIdxs nodes f).flatMap (fun s => (guidIdxs nodes t).map (fun e => (s, e)))

/-- Whether a stored relationship is matched by the MERGE pattern for row
(s, t): same endpoints, same type, GUID property equal to g. -/
def relMatches (s t : Nat) (ty g : String) (r : StoreRel) : Bool :=
  r.src == s && r.tgt == t && r.type == ty && (lookupProp r.props "GUID" == some g)

/-- One row of the relationship MERGE: update every matched relationship,
or create one carrying the pattern property and then update it. -/
def mergeRelRow (rs : List StoreRel) (s t : Nat) (ty g : String) (pr : Props) :
    List StoreRel :=
  if rs.any (relMatches s t ty g) then
    rs.map (fun r =>
      if relMatches s t ty g r then { r with props := updProps r.props pr } else r)
  else
    rs ++ [⟨s, t, ty, updProps [("GUID", g)] pr⟩]

/-- The store mutation of merge_relationship once the endpoint check has
passed: the MERGE runs once per (start, end) row. -/
def mergeRelApply (st : Store) (e : EdgePayload) : Store :=
  let g := e.GUID.getD ""
  let ty := relTypeOf e
  let f := e.fromGUID.getD ""
  let t := e.toGUID.getD ""
  let pr := buildRelProps e g f t
  let newRels :=
    (rowsOf st.nodes f t).foldl (fun rs row => mergeRelRow rs row.1 row.2 ty g pr) st.rels
  { st with rels := newRels }

/-- Python truthiness of an optional string: present and nonempty. -/
def guidOk (v : Option String) : Bool :=
  match v with
  | some s => !(s == "")
  | none => false

/-- Errors raised by import_neo4j.py, all ValueError in the source. -/
inductive ImportError where
  | nodeMissingGuid
  | edgeMissingGuid
  | missingEndpoint (guid : String)
deriving DecidableEq, Repr

/-- merge_relationship from import_neo4j.py: raises the missing-endpoint
error naming the edge GUID when either endpoint identifier is absent or
empty, before touching the store; otherwise applies the MERGE. -/
def merge_relationship (st : Store) (e : EdgePayload) : Except ImportError Store :=
  if !guidOk e.fromGUID || !guidOk e.toGUID then
    .error (.missingEndpoint (e.GUID.getD ""))
  else
    .ok (mergeRelApply st e)

/-- The import payload: a node list and an edge list. -/
structure Payload where
  nodes : List NodePayload
  edges : List EdgePayload
deriving DecidableEq, Repr

/-- Node loop of main: guard the GUID then merge, stopping at the first
failure. -/
def goNodes : Store → List NodePayload → Except ImportError Store
  | st, [] => .ok st
  | st, n :: rest =>
    if guidOk n.GUID then goNodes (merge_node st n) rest
    else .error .nodeMissingGuid

/-- Edge loop of main: guard the GUID, then merge_relationship, stopping
at the first failure. -/
def goEdges : Store → List EdgePayload → Except ImportError Store
  | st, [] => .ok st
  | st, e :: rest =>
    if guidOk e.GUID then
      match merge_relationship st e with
      | .ok st2 => goEdges st2 rest
      | .error err => .error err
    else .error .edgeMissingGuid

/-- importAll: the write path of main in import_neo4j.py — merge every
node, then merge every edge. -/
def importAll (st : Store) (P : Payload) : Except ImportError Store :=
  match goNodes st P.nodes with
  | .ok st1 => goEdges st1 P.edges
  | .error err => .error err

/-- Error-free replay of the node loop. -/
def nodesPure : Store → List NodePayload → Store
  | st, [] => st
  | st, n :: rest => nodesPure (merge_node st n) rest

/-- Error-free replay of the edge loop. -/
def edgesPure : Store → List EdgePayload → Store
  | st, [] => st
  | st, e :: rest => edgesPure (mergeRelApply st e) rest

/-- Error-free replay of importAll. -/
def importPure (st : Store) (P : Payload) : Store :=
  edgesPure (nodesPure st P.nodes) P.edges

/-- All guards importAll evaluates, phrased on the payload alone: node
GUIDs present and nonempty, edge GUIDs and both endpoint GUIDs present
and nonempty. -/
def payloadOk (P : Payload) : Bool :=
  P.nodes.all (fun n => guidOk n.GUID) &&
    P.edges.all (fun e => guidOk e.GUID && guidOk e.fromGUID && guidOk e.toGUID)

/-- The part of a store node that node MERGE patterns can see: the label
set and the GUID property. -/
def nodeKey (n : StoreNode) : List String × Option String :=
  (n.labels, lookupProp n.props "GUID")

/-- nodeMatches expressed on a node key. -/
def keyMatches (L : List String) (g : String) (k : List String × Option String) : Bool :=
  L.all (fun l => k.1.contains l) && (k.2 == some g)

/-- The part of a stored relationship that relationship MERGE patterns can
see: endpoints, type and GUID property. -/
def relKey (r : StoreRel) : Nat × Nat × String × Option String :=
  (r.src, r.tgt, r.type, lookupProp r.props "GUID")

/-- Every entry of the map keyed GUID carries the value g. -/
def guidEntriesAll (pr : Props) (g : String) : Prop :=
  ∀ kv ∈ pr, kv.1 = "GUID" → kv.2 = g

/-- Some entry of the map is keyed GUID. -/
def guidEntryHas (pr : Props) : Prop :=
  ∃ kv ∈ pr, kv.1 = "GUID"

/-- Every MERGE row of the given edge already has a matching stored
relationship in the store. -/
def edgeRowKeysOk (st : Store) (e : EdgePayload) : Prop :=
  ∀ row ∈ rowsOf st.nodes (e.fromGUID.getD "") (e.toGUID.getD ""),
    (row.1, row.2, relTypeOf e, some (e.GUID.getD "")) ∈ st.rels.map relKey

/-- Payload node with identifier g, label A and one property. -/
def c1NodeA : NodePayload := ⟨some "g", some ["A"], [("y", "9")], none⟩

/-- Payload node with the same identifier g, labels A and B. -/
def c1NodeAB : NodePayload := ⟨some "g", some ["A", "B"], [("x", "1")], none⟩

/-- Payload holding two node records that share one identifier but carry
different label sets. -/
def c1Payload : Payload := ⟨[c1NodeA, c1NodeAB], []⟩

/-- Store state after importing c1Payload once into the empty store. -/
def c1Once : Store :=
  ⟨[⟨["A", "Imported"], [("GUID", "g"), ("y", "9")]⟩,
    ⟨["A", "B", "Imported"], [("GUID", "g"), ("x", "1")]⟩], []⟩

/-- Store state after importing c1Payload a second time: the second node
also matches the first record's pattern now, and picks up its property. -/
def c1Twice : Store :=
  ⟨[⟨["A", "Imported"], [("GUID", "g"), ("y", "9")]⟩,
    ⟨["A", "B", "Imported"], [("GUID", "g"), ("x", "1"), ("y", "9")]⟩], []⟩

/-- Small well-behaved payload: one node, one self edge. -/
def w1Payload : Payload :=
  ⟨[⟨some "n1", some ["X"], [("k", "v")], some "77"⟩],
   [⟨some "e1", some "KNOWS", some "n1", some "n1", [("w", "1")], none⟩]⟩

end ImportNeo4j

namespace LoadCodebase

/-- Input tree of load_codebase_fast.py: a node record with GUID, type and
name (required keys), optional description and path, and nested children. -/
inductive JTree where
  | mk (guid ty name : String) (description path : Option String)
       (children : List JTree)
deriving Repr

/-- Root identifier of a tree node. -/
def JTree.guid : JTree → String
  | .mk g _ _ _ _ _ => g

/-- Children of a tree node. -/
def JTree.children : JTree → List JTree
  | .mk _ _ _ _ _ cs => cs

/-- Flat node record produced by flatten_nodes. -/
structure FlatNode where
  guid : String
  ty : String
  name : String
  description : String
  path : String
  source : String
  importDate : String
deriving DecidableEq, Repr

mutual

/-- flatten_nodes from load_codebase_fast.py: append the current node
record, append a (parent_GUID, child_GUID) pair when parent_guid is
truthy (present and nonempty), then recurse into the children.  The
value of import_date produced by datetime.now is modelled as the date
parameter. -/
def flatten_nodes (date : String) : JTree → Option String →
    List FlatNode × List (String × String)
  | .mk g ty nm d p cs, parent =>
    let nd : FlatNode := ⟨g, ty, nm, d.getD "", p.getD "", "codebase-analyzer", date⟩
    let selfRel : List (String × String) :=
      match parent with
      | none => []
      | some pg => if pg = "" then [] else [(pg, g)]
    let rest := flattenChildren date cs g
    (nd :: rest.1, selfRel ++ rest.2)

/-- Sequential recursion over a child list, parent guid pg. -/
def flattenChildren (date : String) : List JTree → String →
    List FlatNode × List (String × String)
  | [], _ => ([], [])
  | c :: rest, pg =>
    let r1 := flatten_nodes date c (some pg)
    let r2 := flattenChildren date rest pg
    (r1.1 ++ r2.1, r1.2 ++ r2.2)

end

mutual

/-- Preorder list of the identifiers of a tree: node first, then the
children left to right. -/
def treeGuids : JTree → List String
  | .mk g _ _ _ _ cs => g :: treeGuidsList cs

/-- Preorder identifiers of a forest. -/
def treeGuidsList : List JTree → List String
  | [] => []
  | c :: rest => treeGuids c ++ treeGuidsList rest

end

/-- Number of nodes of a tree. -/
def treeSize (t : JTree) : Nat := (treeGuids t).length

/-- Total number of nodes of a forest. -/
def treeSizeList (cs : List JTree) : Nat := (treeGuidsList cs).length

/-- Well-formed input tree: identifiers are globally distinct and none is
empty. -/
def wellFormed (t : JTree) : Prop :=
  (treeGuids t).Nodup ∧ ∀ g ∈ treeGuids t, g ≠ ""

/-- Python range(i, L, B) for a positive step B. -/
def rangeStep (L B i : Nat) : List Nat :=
  if _h : 0 < B ∧ i < L then i :: rangeStep L B (i + B) else []
termination_by L - i
decreasing_by omega

/-- Batch slices taken by the loaders: nodes[i:i+B] for i in
range(0, len(nodes), B). -/
def batchesOf (l : List α) (B : Nat) : List (List α) :=
  (rangeStep l.length B 0).map (fun i => (l.drop i).take B)

/-- Result record of load_relationships_batch: the running total the
function accumulates across chunks, and its Python return value, which is
None because the function body has no return statement. -/
structure RelLoadResult where
  totalCreated : Nat
  returned : Option Nat
deriving DecidableEq, Repr

/-- load_relationships_batch from load_codebase_fast.py: chunk the
relationship list, submit each chunk, accumulate the created count the
store reports per chunk (the created oracle models result.single of the
MERGE query), and fall off the end of the function without returning. -/
def load_relationships_batch (created : List (String × String) → Nat)
    (rels : List (String × String)) (B : Nat) : RelLoadResult :=
  { totalCreated := (batchesOf rels B).foldl (fun acc b => acc + created b) 0,
    returned := none }

/-- Edge record consumed by load_edges_batch (all keys are read
unconditionally by the source). -/
structure CEdge where
  source : String
  target : String
  ty : String
  name : String
  guid : String
deriving DecidableEq, Repr

/-- Python str.upper modelled characterwise (ASCII case mapping). -/
def pyUpper (s : String) : String := ⟨s.data.map Char.toUpper⟩

/-- Python str.replace of the one-character pattern made of a space by an
underscore: characterwise substitution. -/
def pyReplaceSpace (s : String) : String :=
  ⟨s.data.map (fun c => if c = ' ' then '_' else c)⟩

/-- Relationship-type token used by load_edges_batch:
edge type .upper().replace(space, underscore). -/
def normalize_edge_type (s : String) : String := pyReplaceSpace (pyUpper s)

/-- Append an edge to the bucket of key k, creating the bucket at the end
when absent (Python dict insertion order). -/
def addToGroup (gs : List (String × List CEdge)) (k : String) (e : CEdge) :
    List (String × List CEdge) :=
  if gs.any (fun g => g.1 == k) then
    gs.map (fun g => if g.1 == k then (g.1, g.2 ++ [e]) else g)
  else
    gs ++ [(k, [e])]

/-- Grouping loop of load_edges_batch: bucket every edge under its
normalized type token. -/
def groupEdges (es : List CEdge) : List (String × List CEdge) :=
  es.foldl (fun gs e => addToGroup gs (normalize_edge_type e.ty) e) []

/-- The set of node identifiers present in the store, as the loader sees
it through the existence query. -/
abbrev NodeSet := List String

/-- Per-type report of load_edges_batch. -/
structure TypeReport where
  etype : String
  total : Nat
  skipped : Nat
  created : Nat
  createdEdges : List CEdge
deriving DecidableEq, Repr

/-- Processing of one edge type by load_edges_batch: collect the distinct
endpoint identifiers, query which exist in the store, keep the edges whose
two endpoints both exist, count the rest as skipped. -/
def processType (store : NodeSet) (ty : String) (tes : List CEdge) : TypeReport :=
  let allGuids := ImportNeo4j.pySet (tes.map CEdge.source ++ tes.map CEdge.target)
  let existing := allGuids.filter (fun g => store.contains g)
  let valid := tes.filter (fun e => existing.contains e.source && existing.contains e.target)
  { etype := ty, total := tes.length, skipped := tes.length - valid.length,
    created := valid.length, createdEdges := valid }

/-- load_edges_batch from load_codebase_fast.py, summarised as the
per-type reports it computes and acts on. -/
def load_edges_batch (store : NodeSet) (es : List CEdge) : List TypeReport :=
  (groupEdges es).map (fun g => processType store g.1 g.2)

/-- The five counts verify_load queries from the store. -/
structure DbCounts where
  node_count : Nat
  contains_count : Nat
  imports_count : Nat
  depends_count : Nat
  kalisi_children : Nat
deriving DecidableEq, Repr

/-- Classification computed by verify_load: a perfect load has exactly
6943 nodes, 6942 CONTAINS edges and 22 children of the Kalisi node; the
IMPORTS and DEPENDS_ON counts do not enter the condition. -/
def verify_load (c : DbCounts) : Bool :=
  c.node_count == 6943 && c.contains_count == 6942 && c.kalisi_children == 22

/-- Leaf tree node used in concrete checks. -/
def w2A : JTree := .mk "A" "file" "a" none none []

/-- Leaf tree node used in concrete checks. -/
def w2B : JTree := .mk "B" "dir" "b" (some "desc") none []

/-- Concrete three-node tree used in concrete checks. -/
def w2R : JTree := .mk "R" "root" "r" none (some "/") [w2A, w2B]

end LoadCodebase

namespace ExportNeo4j

/-- Values returned by the Neo4j driver as the exporter sees them: a
store-native timestamp carrying its ISO-8601 rendering, plain scalars,
sequences (lists and tuples) and string-keyed maps, nested arbitrarily. -/
inductive NeoVal where
  | dt (iso : String)
  | str (v : String)
  | int (v : Int)
  | bool (v : Bool)
  | null
  | list (xs : List NeoVal)
  | tuple (xs : List NeoVal)
  | dict (kvs : List (String × NeoVal))
deriving Repr

mutual

/-- serialize_neo4j_value from export_neo4j.py: timestamps become their
ISO-8601 strings, lists and tuples are rebuilt as lists of serialized
items, maps keep their keys with serialized values, everything else is
returned unchanged. -/
def serialize_neo4j_value : NeoVal → NeoVal
  | .dt iso => .str iso
  | .list xs => .list (serializeList xs)
  | .tuple xs => .list (serializeList xs)
  | .dict kvs => .dict (serializeKVs kvs)
  | .str v => .str v
  | .int v => .int v
  | .bool v => .bool v
  | .null => .null

/-- Item-by-item serialization of a sequence. -/
def serializeList : List NeoVal → List NeoVal
  | [] => []
  | x :: xs => serialize_neo4j_value x :: serializeList xs

/-- Value-by-value serialization of a map. -/
def serializeKVs : List (String × NeoVal) → List (String × NeoVal)
  | [] => []
  | (k, v) :: rest => (k, serialize_neo4j_value v) :: serializeKVs rest

end

mutual

/-- Whether a store-native timestamp occurs anywhere in a value. -/
def containsDT : NeoVal → Bool
  | .dt _ => true
  | .list xs => containsDTList xs
  | .tuple xs => containsDTList xs
  | .dict kvs => containsDTKVs kvs
  | _ => false

/-- Timestamp occurrence in a sequence. -/
def containsDTList : List NeoVal → Bool
  | [] => false
  | x :: xs => containsDT x || containsDTList xs

/-- Timestamp occurrence among map values. -/
def containsDTKVs : List (String × NeoVal) → Bool
  | [] => false
  | (_, v) :: rest => containsDT v || containsDTKVs rest

end

/-- Shape of a value: scalars collapse to one shape, sequences and maps
keep their structure (and maps their keys). -/
inductive VShape where
  | scalar
  | seq (xs : List VShape)
  | dict (kvs : List (String × VShape))
deriving Repr

mutual

/-- Shape of a value. -/
def shapeOf : NeoVal → VShape
  | .dt _ => .scalar
  | .str _ => .scalar
  | .int _ => .scalar
  | .bool _ => .scalar
  | .null => .scalar
  | .list xs => .seq (shapeList xs)
  | .tuple xs => .seq (shapeList xs)
  | .dict kvs => .dict (shapeKVs kvs)

/-- Shapes of the items of a sequence. -/
def shapeList : List NeoVal → List VShape
  | [] => []
  | x :: xs => shapeOf x :: shapeList xs

/-- Shapes of the values of a map, keys kept. -/
def shapeKVs : List (String × NeoVal) → List (String × VShape)
  | [] => []
  | (k, v) :: rest => (k, shapeOf v) :: shapeKVs rest

end

end ExportNeo4j

/-! ## Theorems -/

namespace LoadCodebase

theorem rangeStep_unfold (L B i : Nat) :
    rangeStep L B i =
      if 0 < B ∧ i < L then i :: rangeStep L B (i + B) else [] := by
  rw [rangeStep]
  split <;> simp_all

theorem rangeStep_flatten {α : Type} (B : Nat) (hB : 0 < B) (l : List α) :
    ∀ i, ((rangeStep l.length B i).map (fun j => (l.drop j).take B)).flatten = l.drop i := by
  have H : ∀ n i, l.length - i ≤ n →
      ((rangeStep l.length B i).map (fun j => (l.drop j).take B)).flatten = l.drop i := by
    intro n
    induction n with
    | zero =>
      intro i hle
      have hiL : l.length ≤ i := by omega
      rw [rangeStep_unfold, if_neg (by omega)]
      simp [List.drop_eq_nil_of_le hiL]
    | succ n ih =>
      intro i hle
      by_cases h : i < l.length
      · rw [rangeStep_unfold, if_pos ⟨hB, h⟩]
        simp only [List.map_cons, List.flatten_cons]
        rw [ih (i + B) (by omega)]
        rw [show l.drop (i + B) = (l.drop i).drop B by rw [List.drop_drop, Nat.add_comm]]
        exact List.take_append_drop B (l.drop i)
      · rw [rangeStep_unfold, if_neg (by omega)]
        simp [List.drop_eq_nil_of_le (by omega : l.length ≤ i)]
  intro i
  exact H l.length i (by omega)

theorem rangeStep_length (B : Nat) (hB : 0 < B) (L : Nat) :
    ∀ i, (rangeStep L B i).length = (L - i + B - 1) / B := by
  have hzero : ∀ i, L ≤ i → (rangeStep L B i).length = (L - i + B - 1) / B := by
    intro i hiL
    rw [rangeStep_unfold, if_neg (by omega)]
    have h1 : L - i + B - 1 = B - 1 := by omega
    simp [h1, Nat.div_eq_of_lt (by omega : B - 1 < B)]
  have H : ∀ n i, L - i ≤ n → (rangeStep L B i).length = (L - i + B - 1) / B := by
    intro n
    induction n with
    | zero => intro i hle; exact hzero i (by omega)
    | succ n ih =>
      intro i hle
      by_cases h : i < L
      · rw [rangeStep_unfold, if_pos ⟨hB, h⟩]
        simp only [List.length_cons]
        rw [ih (i + B) (by omega)]
        have h1 : L - i + B - 1 = (L - i - 1) + B := by omega
        rw [h1, Nat.add_div_right _ hB]
        congr 1
        by_cases hMB : L - i ≤ B
        · have h0 : L - (i + B) = 0 := by omega
          rw [h0]
          have h2 : 0 + B - 1 = B - 1 := by omega
          rw [h2, Nat.div_eq_of_lt (by omega : B - 1 < B),
            Nat.div_eq_of_lt (by omega : L - i - 1 < B)]
        · have h3 : L - (i + B) + B - 1 = L - i - 1 := by omega
          rw [h3]
      · exact hzero i (by omega)
  intro i
  exact H L i (by omega)

/-- C5: load_nodes_batch slices its input into ceil(L/B) contiguous
chunks of size at most B whose concatenation in submission order is the
input list itself, so every node lands in exactly one chunk. -/
theorem c5_chunking {α : Type} (l : List α) (B : Nat) (hB : 0 < B) :
    (batchesOf l B).length = (l.length + B - 1) / B ∧
    (∀ c ∈ batchesOf l B, c.length ≤ B) ∧
    (batchesOf l B).flatten = l := by
  refine ⟨?_, ?_, ?_⟩
  · rw [batchesOf, List.length_map, rangeStep_length B hB l.length 0, Nat.sub_zero]
  · intro c hc
    rw [batchesOf, List.mem_map] at hc
    obtain ⟨j, _, rfl⟩ := hc
    rw [List.length_take]
    exact min_le_left _ _
  · rw [batchesOf, rangeStep_flatten B hB l 0, List.drop_zero]

/-- C5 witness: the chunking theorem evaluated on a five-element list with
batch size two. -/
theorem c5_chunking_witness :
    (batchesOf [10, 20, 30, 40, 50] 2).length = (5 + 2 - 1) / 2 ∧
    (∀ c ∈ batchesOf [10, 20, 30, 40, 50] 2, c.length ≤ 2) ∧
    (batchesOf [10, 20, 30, 40, 50] 2).flatten = [10, 20, 30, 40, 50] :=
  c5_chunking [10, 20, 30, 40, 50] 2 (by decide)

end LoadCodebase

namespace LoadCodebase

/-- C4: verify_load classifies the run as complete exactly when the node
count, the CONTAINS count and the Kalisi child count match 6943, 6942 and
22; changing any single one of the three to a mismatching value flips the
classification to incomplete, while the IMPORTS and DEPENDS_ON counts
never affect it. -/
theorem c4_verify_complete_iff (c : DbCounts) :
    (verify_load c = true ↔
      (c.node_count = 6943 ∧ c.contains_count = 6942 ∧ c.kalisi_children = 22)) ∧
    (∀ i d, verify_load { c with imports_count := i, depends_count := d } = verify_load c) ∧
    (∀ v, verify_load c = true → v ≠ 6943 →
      verify_load { c with node_count := v } = false) ∧
    (∀ v, verify_load c = true → v ≠ 6942 →
      verify_load { c with contains_count := v } = false) ∧
    (∀ v, verify_load c = true → v ≠ 22 →
      verify_load { c with kalisi_children := v } = false) := by
  refine ⟨?_, fun i d => rfl, ?_, ?_, ?_⟩ <;>
    simp only [verify_load, Bool.and_eq_true, beq_iff_eq]
  · tauto
  · intro v _ hv
    simp [hv]
  · intro v _ hv
    simp [hv]
  · intro v _ hv
    simp [hv]

/-- C4 witness: the verification classification evaluated at the expected
counts and at single-field mismatches. -/
theorem c4_verify_complete_iff_witness :
    (verify_load ⟨6943, 6942, 2008, 25, 22⟩ = true ↔
      ((6943 : Nat) = 6943 ∧ (6942 : Nat) = 6942 ∧ (22 : Nat) = 22)) ∧
    verify_load ⟨6943, 6942, 0, 0, 22⟩ = verify_load ⟨6943, 6942, 2008, 25, 22⟩ ∧
    verify_load ⟨0, 6942, 2008, 25, 22⟩ = false ∧
    verify_load ⟨6943, 0, 2008, 25, 22⟩ = false ∧
    verify_load ⟨6943, 6942, 2008, 25, 0⟩ = false := by
  obtain ⟨h1, h2, h3, h4, h5⟩ := c4_verify_complete_iff ⟨6943, 6942, 2008, 25, 22⟩
  exact ⟨h1, h2 0 0, h3 0 (by decide) (by decide), h4 0 (by decide) (by decide),
    h5 0 (by decide) (by decide)⟩

theorem foldl_add_eq_sum (f : List (String × String) → Nat) :
    ∀ (l : List (List (String × String))) (acc : Nat),
      l.foldl (fun a b => a + f b) acc = acc + (l.map f).sum := by
  intro l
  induction l with
  | nil => intro acc; simp
  | cons b rest ih =>
    intro acc
    simp only [List.foldl_cons, List.map_cons, List.sum_cons]
    rw [ih]
    omega

/-- C8 counterexample: load_relationships_batch accumulates the running
total (3 for this input) but the Python function returns None, not that
total, because its body has no return statement. -/
theorem c8_returns_none :
    (load_relationships_batch (fun b => b.length) [("a", "b"), ("b", "c"), ("c", "d")] 2).returned ≠
      some ((batchesOf [("a", "b"), ("b", "c"), ("c", "d")] 2).map (fun b => b.length)).sum ∧
    (load_relationships_batch (fun b => b.length)
      [("a", "b"), ("b", "c"), ("c", "d")] 2).totalCreated = 3 := by
  constructor
  · intro h
    exact Option.noConfusion h
  · simp [load_relationships_batch, batchesOf, rangeStep_unfold]

/-- C8 amended: the running total load_relationships_batch accumulates
(and reports in its progress output) equals the sum over all chunks of the
per-chunk created counts reported by the store, but the value the function
returns is None, not that total. -/
theorem c8_running_total (created : List (String × String) → Nat)
    (rels : List (String × String)) (B : Nat) :
    (load_relationships_batch created rels B).totalCreated =
      ((batchesOf rels B).map created).sum ∧
    (load_relationships_batch created rels B).returned = none := by
  constructor
  · rw [load_relationships_batch]
    simp only
    rw [foldl_add_eq_sum created (batchesOf rels B) 0, Nat.zero_add]
  · rfl

/-- C3: for every edge type bucket processed by load_edges_batch, the
skipped count plus the number of edges selected for creation equals the
bucket total, and every edge selected for creation has both endpoints in
the store's node set at creation time. -/
theorem c3_edge_validation (store : NodeSet) (es : List CEdge) (r : TypeReport)
    (hr : r ∈ load_edges_batch store es) :
    r.skipped + r.created = r.total ∧
    ∀ e ∈ r.createdEdges,
      store.contains e.source = true ∧ store.contains e.target = true := by
  rw [load_edges_batch, List.mem_map] at hr
  obtain ⟨⟨ty, tes⟩, _, rfl⟩ := hr
  rw [processType]
  simp only
  constructor
  · have hle := List.length_filter_le
      (fun e => ((ImportNeo4j.pySet (tes.map CEdge.source ++ tes.map CEdge.target)).filter
        (fun g => store.contains g)).contains e.source &&
        ((ImportNeo4j.pySet (tes.map CEdge.source ++ tes.map CEdge.target)).filter
          (fun g => store.contains g)).contains e.target) tes
    omega
  · intro e he
    rw [List.mem_filter] at he
    obtain ⟨_, hpred⟩ := he
    rw [Bool.and_eq_true] at hpred
    obtain ⟨hs, ht⟩ := hpred
    rw [List.elem_iff, List.mem_filter] at hs ht
    exact ⟨hs.2, ht.2⟩

/-- C3 witness: the per-type balance evaluated on the spec's concrete
scenario, a single CALLS edge whose target X is absent from the store. -/
theorem c3_edge_validation_witness :
    (⟨"CALLS", 1, 1, 0, []⟩ : TypeReport).skipped + (⟨"CALLS", 1, 1, 0, []⟩ : TypeReport).created =
      (⟨"CALLS", 1, 1, 0, []⟩ : TypeReport).total ∧
    ∀ e ∈ (⟨"CALLS", 1, 1, 0, []⟩ : TypeReport).createdEdges,
      (["A", "B", "R"] : NodeSet).contains e.source = true ∧
      (["A", "B", "R"] : NodeSet).contains e.target = true :=
  c3_edge_validation ["A", "B", "R"] [⟨"A", "X", "calls", "f", "e1"⟩]
    ⟨"CALLS", 1, 1, 0, []⟩ (by decide)

end LoadCodebase

namespace LoadCodebase

theorem find?_map_keyfix (gs : List (String × List CEdge)) (k k2 : String) (e : CEdge) :
    ((gs.map (fun g => if g.1 == k then (g.1, g.2 ++ [e]) else g)).find?
        (fun g => g.1 == k2)) =
      (gs.find? (fun g => g.1 == k2)).map
        (fun g => if g.1 == k then (g.1, g.2 ++ [e]) else g) := by
  induction gs with
  | nil => rfl
  | cons a rest ih =>
    have hkey : ((if (a.1 == k) = true then (a.1, a.2 ++ [e]) else a).1 == k2)
        = (a.1 == k2) := by
      split <;> rfl
    simp only [List.map_cons, List.find?_cons, hkey]
    cases h : (a.1 == k2) with
    | true => rfl
    | false => exact ih

theorem addToGroup_self (gs : List (String × List CEdge)) (k : String) (e : CEdge) :
    ∃ b, (addToGroup gs k e).find? (fun g => g.1 == k) = some b ∧ e ∈ b.2 := by
  rw [addToGroup]
  by_cases hany : gs.any (fun g => g.1 == k) = true
  · rw [if_pos hany, find?_map_keyfix]
    have hsome : ((gs.find? (fun g => g.1 == k)).isSome) = true :=
      List.find?_isSome.mpr (List.any_eq_true.mp hany)
    obtain ⟨b0, hb0⟩ := Option.isSome_iff_exists.mp hsome
    have hb0k := List.find?_some hb0
    refine ⟨(b0.1, b0.2 ++ [e]), ?_, ?_⟩
    · rw [hb0]
      show some (if (b0.1 == k) = true then (b0.1, b0.2 ++ [e]) else b0) = _
      rw [if_pos hb0k]
    · exact List.mem_append_right _ (List.mem_singleton.mpr rfl)
  · rw [if_neg hany, List.find?_append]
    have hnone : gs.find? (fun g => g.1 == k) = none := by
      rw [List.find?_eq_none]
      intro x hx hpx
      exact hany (List.any_eq_true.mpr ⟨x, hx, hpx⟩)
    refine ⟨(k, [e]), ?_, List.mem_singleton.mpr rfl⟩
    rw [hnone]
    simp [List.find?_cons]

theorem addToGroup_mono (gs : List (String × List CEdge)) (k k2 : String) (e x : CEdge)
    (h : ∃ b, gs.find? (fun g => g.1 == k2) = some b ∧ x ∈ b.2) :
    ∃ b, (addToGroup gs k e).find? (fun g => g.1 == k2) = some b ∧ x ∈ b.2 := by
  obtain ⟨b, hf, hx⟩ := h
  rw [addToGroup]
  by_cases hany : gs.any (fun g => g.1 == k) = true
  · rw [if_pos hany, find?_map_keyfix, hf]
    by_cases hb : (b.1 == k) = true
    · refine ⟨(b.1, b.2 ++ [e]), ?_, List.mem_append_left _ hx⟩
      show some (if (b.1 == k) = true then (b.1, b.2 ++ [e]) else b) = _
      rw [if_pos hb]
    · refine ⟨b, ?_, hx⟩
      show some (if (b.1 == k) = true then (b.1, b.2 ++ [e]) else b) = _
      rw [if_neg hb]
  · rw [if_neg hany, List.find?_append, hf]
    exact ⟨b, Option.or_some, hx⟩

theorem groupFold_preserves (rest : List CEdge) :
    ∀ (gs : List (String × List CEdge)) (k : String) (x : CEdge),
      (∃ b, gs.find? (fun g => g.1 == k) = some b ∧ x ∈ b.2) →
      ∃ b, ((rest.foldl (fun gs e => addToGroup gs (normalize_edge_type e.ty) e) gs).find?
          (fun g => g.1 == k)) = some b ∧ x ∈ b.2 := by
  induction rest with
  | nil => intro gs k x h; exact h
  | cons a r ih =>
    intro gs k x h
    exact ih _ k x (addToGroup_mono gs (normalize_edge_type a.ty) k a x h)

theorem groupFold_mem (rest : List CEdge) :
    ∀ (gs : List (String × List CEdge)) (e : CEdge), e ∈ rest →
      ∃ b, ((rest.foldl (fun gs e => addToGroup gs (normalize_edge_type e.ty) e) gs).find?
          (fun g => g.1 == normalize_edge_type e.ty)) = some b ∧ e ∈ b.2 := by
  induction rest with
  | nil => intro gs e h; exact absurd h (List.not_mem_nil e)
  | cons a r ih =>
    intro gs e he
    rcases List.mem_cons.mp he with rfl | hr
    · exact groupFold_preserves r _ _ e (addToGroup_self gs (normalize_edge_type e.ty) e)
    · exact ih _ e hr

/-- C7 counterexample: a tab inside an edge type survives normalization
(only the space character is replaced by an underscore), so the claim that
any whitespace character becomes an underscore fails on this input. -/
theorem c7_tab_survives :
    normalize_edge_type "depends\ton" = "DEPENDS\tON" ∧
    normalize_edge_type "depends\ton" ≠ "DEPENDS_ON" := by decide

/-- C7 amended: the grouping key of load_edges_batch is the edge type
mapped characterwise to upper case with the space character (and only the
space character) replaced by an underscore, and every edge is bucketed
under exactly that key. -/
theorem c7_normalization (es : List CEdge) (e : CEdge) (he : e ∈ es) :
    (∀ s : String, normalize_edge_type s =
      ⟨s.data.map (fun c => if c.toUpper = ' ' then '_' else c.toUpper)⟩) ∧
    (∃ b, (groupEdges es).find? (fun g => g.1 == normalize_edge_type e.ty) = some b ∧
      e ∈ b.2) := by
  constructor
  · intro s
    show String.mk ((s.data.map Char.toUpper).map (fun c => if c = ' ' then '_' else c)) = _
    rw [List.map_map]
    rfl
  · exact groupFold_mem es [] e he

/-- C7 witness: the normalization and bucketing evaluated on one edge
whose type contains a space. -/
theorem c7_normalization_witness :
    (∀ s : String, normalize_edge_type s =
      ⟨s.data.map (fun c => if c.toUpper = ' ' then '_' else c.toUpper)⟩) ∧
    (∃ b, (groupEdges [⟨"A", "X", "some call", "f", "e1"⟩]).find?
        (fun g => g.1 == normalize_edge_type "some call") = some b ∧
      (⟨"A", "X", "some call", "f", "e1"⟩ : CEdge) ∈ b.2) :=
  c7_normalization [⟨"A", "X", "some call", "f", "e1"⟩]
    ⟨"A", "X", "some call", "f", "e1"⟩ (List.mem_singleton.mpr rfl)

end LoadCodebase

namespace ExportNeo4j

theorem NeoVal.ind_val (P : NeoVal → Prop)
    (hdt : ∀ iso, P (.dt iso)) (hstr : ∀ v, P (.str v)) (hint : ∀ v, P (.int v))
    (hbool : ∀ v, P (.bool v)) (hnull : P .null)
    (hlist : ∀ xs, (∀ x ∈ xs, P x) → P (.list xs))
    (htuple : ∀ xs, (∀ x ∈ xs, P x) → P (.tuple xs))
    (hdict : ∀ kvs, (∀ kv ∈ kvs, P kv.2) → P (.dict kvs)) :
    ∀ v, P v := by
  have H : ∀ n v, sizeOf v ≤ n → P v := by
    intro n
    induction n with
    | zero =>
      intro v hv
      exfalso
      have h1 : 1 ≤ sizeOf v := by cases v <;> simp_arith
      omega
    | succ n ih =>
      intro v hv
      cases v with
      | dt iso => exact hdt iso
      | str v => exact hstr v
      | int v => exact hint v
      | bool v => exact hbool v
      | null => exact hnull
      | list xs =>
        refine hlist xs (fun x hx => ih x ?_)
        have h1 := List.sizeOf_lt_of_mem hx
        have h2 : sizeOf (NeoVal.list xs) = 1 + sizeOf xs := by simp
        omega
      | tuple xs =>
        refine htuple xs (fun x hx => ih x ?_)
        have h1 := List.sizeOf_lt_of_mem hx
        have h2 : sizeOf (NeoVal.tuple xs) = 1 + sizeOf xs := by simp
        omega
      | dict kvs =>
        refine hdict kvs (fun kv hkv => ih kv.2 ?_)
        have h1 := List.sizeOf_lt_of_mem hkv
        have h2 : sizeOf (NeoVal.dict kvs) = 1 + sizeOf kvs := by simp
        have h3 : sizeOf kv.2 < sizeOf kv := by
          obtain ⟨a, b⟩ := kv
          simp_arith
        omega
  intro v
  exact H (sizeOf v) v (by omega)

theorem containsDTList_serialize (xs : List NeoVal)
    (h : ∀ x ∈ xs, containsDT (serialize_neo4j_value x) = false) :
    containsDTList (serializeList xs) = false := by
  induction xs with
  | nil => rfl
  | cons x rest ih =>
    rw [serializeList, containsDTList, h x (List.mem_cons_self x rest),
      ih (fun y hy => h y (List.mem_cons_of_mem x hy))]
    rfl

theorem containsDTKVs_serialize (kvs : List (String × NeoVal))
    (h : ∀ kv ∈ kvs, containsDT (serialize_neo4j_value kv.2) = false) :
    containsDTKVs (serializeKVs kvs) = false := by
  induction kvs with
  | nil => rfl
  | cons kv rest ih =>
    obtain ⟨k, v⟩ := kv
    rw [serializeKVs, containsDTKVs, h (k, v) (List.mem_cons_self _ rest),
      ih (fun y hy => h y (List.mem_cons_of_mem _ hy))]
    rfl

theorem shapeList_serialize (xs : List NeoVal)
    (h : ∀ x ∈ xs, shapeOf (serialize_neo4j_value x) = shapeOf x) :
    shapeList (serializeList xs) = shapeList xs := by
  induction xs with
  | nil => rfl
  | cons x rest ih =>
    rw [serializeList, shapeList, h x (List.mem_cons_self x rest),
      ih (fun y hy => h y (List.mem_cons_of_mem x hy)), shapeList]

theorem shapeKVs_serialize (kvs : List (String × NeoVal))
    (h : ∀ kv ∈ kvs, shapeOf (serialize_neo4j_value kv.2) = shapeOf kv.2) :
    shapeKVs (serializeKVs kvs) = shapeKVs kvs := by
  induction kvs with
  | nil => rfl
  | cons kv rest ih =>
    obtain ⟨k, v⟩ := kv
    rw [serializeKVs, shapeKVs, h (k, v) (List.mem_cons_self _ rest),
      ih (fun y hy => h y (List.mem_cons_of_mem _ hy)), shapeKVs]

/-- C9: serialize_neo4j_value is a total function (it terminates on every
finitely nested value), its result contains no store-native timestamp at
any depth, the shape of the value is preserved (tuples count as sequences,
map keys are kept), a timestamp becomes its ISO-8601 string, and every
other scalar is returned unchanged. -/
theorem c9_serialize_normalizes :
    (∀ v, containsDT (serialize_neo4j_value v) = false ∧
      shapeOf (serialize_neo4j_value v) = shapeOf v) ∧
    (∀ iso, serialize_neo4j_value (.dt iso) = .str iso) ∧
    (∀ s, serialize_neo4j_value (.str s) = .str s) ∧
    (∀ i, serialize_neo4j_value (.int i) = .int i) ∧
    (∀ b, serialize_neo4j_value (.bool b) = .bool b) ∧
    serialize_neo4j_value .null = .null := by
  refine ⟨?_, fun iso => rfl, fun s => rfl, fun i => rfl, fun b => rfl, rfl⟩
  intro v
  induction v using NeoVal.ind_val with
  | hdt iso => exact ⟨rfl, rfl⟩
  | hstr v => exact ⟨rfl, rfl⟩
  | hint v => exact ⟨rfl, rfl⟩
  | hbool v => exact ⟨rfl, rfl⟩
  | hnull => exact ⟨rfl, rfl⟩
  | hlist xs ih =>
    constructor
    · rw [serialize_neo4j_value, containsDT]
      exact containsDTList_serialize xs (fun x hx => (ih x hx).1)
    · rw [serialize_neo4j_value, shapeOf, shapeOf]
      rw [shapeList_serialize xs (fun x hx => (ih x hx).2)]
  | htuple xs ih =>
    constructor
    · rw [serialize_neo4j_value, containsDT]
      exact containsDTList_serialize xs (fun x hx => (ih x hx).1)
    · rw [serialize_neo4j_value, shapeOf, shapeOf]
      rw [shapeList_serialize xs (fun x hx => (ih x hx).2)]
  | hdict kvs ih =>
    constructor
    · rw [serialize_neo4j_value, containsDT]
      exact containsDTKVs_serialize kvs (fun kv hkv => (ih kv hkv).1)
    · rw [serialize_neo4j_value, shapeOf, shapeOf]
      rw [shapeKVs_serialize kvs (fun kv hkv => (ih kv hkv).2)]

end ExportNeo4j

namespace LoadCodebase

theorem JTree.ind_tree (P : JTree → Prop)
    (h : ∀ g ty nm d p cs, (∀ c ∈ cs, P c) → P (.mk g ty nm d p cs)) :
    ∀ t, P t := by
  have H : ∀ n t, sizeOf t ≤ n → P t := by
    intro n
    induction n with
    | zero =>
      intro t ht
      exfalso
      have h1 : 1 ≤ sizeOf t := by cases t <;> simp_arith
      omega
    | succ n ih =>
      intro t ht
      obtain ⟨g, ty, nm, d, p, cs⟩ := t
      refine h g ty nm d p cs (fun c hc => ih c ?_)
      have h1 := List.sizeOf_lt_of_mem hc
      have h2 : sizeOf (JTree.mk g ty nm d p cs) =
          1 + sizeOf g + sizeOf ty + sizeOf nm + sizeOf d + sizeOf p + sizeOf cs := by
        simp
      omega
  intro t
  exact H (sizeOf t) t (by omega)

theorem guid_mem_treeGuids (t : JTree) : t.guid ∈ treeGuids t := by
  obtain ⟨g, ty, nm, d, p, cs⟩ := t
  rw [treeGuids, JTree.guid]
  exact List.mem_cons_self _ _

theorem treeGuids_sublist_list (cs : List JTree) (c : JTree) (hc : c ∈ cs) :
    (treeGuids c).Sublist (treeGuidsList cs) := by
  induction cs with
  | nil => exact absurd hc (List.not_mem_nil c)
  | cons a rest ih =>
    rw [treeGuidsList]
    rcases List.mem_cons.mp hc with rfl | hr
    · exact List.sublist_append_left _ _
    · exact (ih hr).trans (List.sublist_append_right _ _)

theorem mem_treeGuidsList_of_mem (cs : List JTree) (c : JTree) (hc : c ∈ cs)
    (x : String) (hx : x ∈ treeGuids c) : x ∈ treeGuidsList cs :=
  (treeGuids_sublist_list cs c hc).mem hx

theorem flattenChildren_guids (cs : List JTree) (date pg : String)
    (ih : ∀ c ∈ cs, ∀ par, ((flatten_nodes date c par).1).map FlatNode.guid = treeGuids c) :
    ((flattenChildren date cs pg).1).map FlatNode.guid = treeGuidsList cs := by
  induction cs with
  | nil => rfl
  | cons c rest ihr =>
    rw [flattenChildren, treeGuidsList]
    simp only [List.map_append]
    rw [ih c (List.mem_cons_self _ _) (some pg),
      ihr (fun c2 hc2 => ih c2 (List.mem_cons_of_mem _ hc2))]

theorem flatten_nodes_guids (t : JTree) :
    ∀ (date : String) (par : Option String),
      ((flatten_nodes date t par).1).map FlatNode.guid = treeGuids t := by
  induction t using JTree.ind_tree with
  | h g ty nm d p cs ih =>
    intro date par
    simp only [flatten_nodes, treeGuids, List.map_cons]
    rw [flattenChildren_guids cs date g (fun c hc par2 => ih c hc date par2)]

theorem flatten_nodes_length (t : JTree) (date : String) (par : Option String) :
    ((flatten_nodes date t par).1).length = treeSize t := by
  rw [treeSize, ← flatten_nodes_guids t date par, List.length_map]

theorem flattenChildren_mem_rels (cs : List JTree) (date pg : String)
    (pr : String × String) (hpr : pr ∈ (flattenChildren date cs pg).2) :
    ∃ c ∈ cs, pr ∈ (flatten_nodes date c (some pg)).2 := by
  induction cs with
  | nil => exact absurd hpr (List.not_mem_nil pr)
  | cons c rest ih =>
    rw [flattenChildren] at hpr
    rcases List.mem_append.mp hpr with h1 | h2
    · exact ⟨c, List.mem_cons_self _ _, h1⟩
    · obtain ⟨c2, hc2, hpr2⟩ := ih h2
      exact ⟨c2, List.mem_cons_of_mem _ hc2, hpr2⟩

theorem flattenChildren_rels_length (cs : List JTree) (date pg : String)
    (hpg : pg ≠ "")
    (ih : ∀ c ∈ cs, ∀ pg2, pg2 ≠ "" → ((flatten_nodes date c (some pg2)).2).length = treeSize c) :
    ((flattenChildren date cs pg).2).length = treeSizeList cs := by
  induction cs with
  | nil => rfl
  | cons c rest ihr =>
    rw [flattenChildren]
    simp only [List.length_append]
    rw [ih c (List.mem_cons_self _ _) pg hpg,
      ihr (fun c2 hc2 => ih c2 (List.mem_cons_of_mem _ hc2))]
    show treeSize c + (treeGuidsList rest).length = (treeGuidsList (c :: rest)).length
    rw [treeGuidsList, List.length_append]
    rfl

theorem flatten_nodes_rels_length (t : JTree) :
    ∀ (date pg : String), pg ≠ "" → (∀ x ∈ treeGuids t, x ≠ "") →
      ((flatten_nodes date t (some pg)).2).length = treeSize t := by
  induction t using JTree.ind_tree with
  | h g ty nm d p cs ih =>
    intro date pg hpg hx
    have hg : g ≠ "" := hx g (by rw [treeGuids]; exact List.mem_cons_self _ _)
    simp only [flatten_nodes, if_neg hpg]
    rw [List.length_append]
    have hcs : ∀ c ∈ cs, ∀ pg2, pg2 ≠ "" →
        ((flatten_nodes date c (some pg2)).2).length = treeSize c := by
      intro c hc pg2 hp2
      refine ih c hc date pg2 hp2 ?_
      intro x hxc
      refine hx x ?_
      rw [treeGuids]
      exact List.mem_cons_of_mem _ (mem_treeGuidsList_of_mem cs c hc x hxc)
    rw [flattenChildren_rels_length cs date g hg hcs]
    rw [treeSize, treeGuids, List.length_cons, treeSizeList]
    simp [Nat.add_comm]

theorem flatten_nodes_rel_child_mem (t : JTree) :
    ∀ (date pg : String) (pr : String × String),
      pr ∈ (flatten_nodes date t (some pg)).2 → pr.2 ∈ treeGuids t := by
  induction t using JTree.ind_tree with
  | h g ty nm d p cs ih =>
    intro date pg pr hpr
    simp only [flatten_nodes] at hpr
    rw [treeGuids]
    rcases List.mem_append.mp hpr with h1 | h2
    · by_cases hpg : pg = ""
      · rw [if_pos hpg] at h1
        exact absurd h1 (List.not_mem_nil pr)
      · rw [if_neg hpg] at h1
        rw [List.mem_singleton.mp h1]
        exact List.mem_cons_self _ _
    · obtain ⟨c, hc, hpr2⟩ := flattenChildren_mem_rels cs date g pr h2
      exact List.mem_cons_of_mem _
        (mem_treeGuidsList_of_mem cs c hc pr.2 (ih c hc date g pr hpr2))

theorem flatten_nodes_rel_sublist (t : JTree) :
    ∀ (date pg : String) (pr : String × String),
      pr ∈ (flatten_nodes date t (some pg)).2 →
      pr = (pg, t.guid) ∨ [pr.1, pr.2].Sublist (treeGuids t) := by
  induction t using JTree.ind_tree with
  | h g ty nm d p cs ih =>
    intro date pg pr hpr
    simp only [flatten_nodes] at hpr
    rcases List.mem_append.mp hpr with h1 | h2
    · by_cases hpg : pg = ""
      · rw [if_pos hpg] at h1
        exact absurd h1 (List.not_mem_nil pr)
      · rw [if_neg hpg] at h1
        exact Or.inl (List.mem_singleton.mp h1)
    · right
      obtain ⟨c, hc, hpr2⟩ := flattenChildren_mem_rels cs date g pr h2
      rw [treeGuids]
      rcases ih c hc date g pr hpr2 with heq | hsub
      · rw [heq]
        refine List.Sublist.cons₂ g ?_
        exact List.singleton_sublist.mpr
          (mem_treeGuidsList_of_mem cs c hc c.guid (guid_mem_treeGuids c))
      · exact List.Sublist.cons g (hsub.trans (treeGuids_sublist_list cs c hc))

/-- C2: on a well-formed tree (distinct, nonempty identifiers) with N
nodes, flatten_nodes called at the root produces exactly N flat records
and exactly N - 1 (parent identifier, child identifier) pairs, the record
list is the preorder traversal of the tree (each parent before its
children, depth first), for every pair the parent identifier occurs in the
record list strictly before the child identifier, and the root identifier
never appears as the child of a pair. -/
theorem c2_flatten_nodes_spec (date : String) (t : JTree) (h : wellFormed t) :
    ((flatten_nodes date t none).1).length = treeSize t ∧
    ((flatten_nodes date t none).2).length = treeSize t - 1 ∧
    ((flatten_nodes date t none).1).map FlatNode.guid = treeGuids t ∧
    (∀ pr ∈ (flatten_nodes date t none).2,
      [pr.1, pr.2].Sublist (((flatten_nodes date t none).1).map FlatNode.guid)) ∧
    (∀ pr ∈ (flatten_nodes date t none).2, pr.2 ≠ t.guid) := by
  obtain ⟨hnodup, hne⟩ := h
  obtain ⟨g, ty, nm, d, p, cs⟩ := t
  have hg : g ≠ "" := hne g (by rw [treeGuids]; exact List.mem_cons_self _ _)
  have hcs : ∀ c ∈ cs, ∀ pg2, pg2 ≠ "" →
      ((flatten_nodes date c (some pg2)).2).length = treeSize c := by
    intro c hc pg2 hp2
    refine flatten_nodes_rels_length c date pg2 hp2 ?_
    intro x hxc
    refine hne x ?_
    rw [treeGuids]
    exact List.mem_cons_of_mem _ (mem_treeGuidsList_of_mem cs c hc x hxc)
  refine ⟨flatten_nodes_length _ date none, ?_, flatten_nodes_guids _ date none, ?_, ?_⟩
  · simp only [flatten_nodes]
    rw [List.nil_append, flattenChildren_rels_length cs date g hg hcs]
    rw [treeSize, treeGuids, List.length_cons, treeSizeList]
    omega
  · intro pr hpr
    rw [flatten_nodes_guids _ date none]
    simp only [flatten_nodes] at hpr
    rw [List.nil_append] at hpr
    obtain ⟨c, hc, hpr2⟩ := flattenChildren_mem_rels cs date g pr hpr
    rw [treeGuids]
    rcases flatten_nodes_rel_sublist c date g pr hpr2 with heq | hsub
    · rw [heq]
      refine List.Sublist.cons₂ g ?_
      exact List.singleton_sublist.mpr
        (mem_treeGuidsList_of_mem cs c hc c.guid (guid_mem_treeGuids c))
    · exact List.Sublist.cons g (hsub.trans (treeGuids_sublist_list cs c hc))
  · intro pr hpr
    simp only [flatten_nodes] at hpr
    rw [List.nil_append] at hpr
    obtain ⟨c, hc, hpr2⟩ := flattenChildren_mem_rels cs date g pr hpr
    have hmem : pr.2 ∈ treeGuidsList cs :=
      mem_treeGuidsList_of_mem cs c hc pr.2 (flatten_nodes_rel_child_mem c date g pr hpr2)
    rw [treeGuids] at hnodup
    intro hcontra
    rw [JTree.guid] at hcontra
    exact (List.nodup_cons.mp hnodup).1 (hcontra ▸ hmem)

/-- C2 witness: the flattening conclusions evaluated on a concrete
three-node tree. -/
theorem c2_flatten_nodes_spec_witness :
    ((flatten_nodes "d" w2R none).1).length = treeSize w2R ∧
    ((flatten_nodes "d" w2R none).2).length = treeSize w2R - 1 ∧
    ((flatten_nodes "d" w2R none).1).map FlatNode.guid = treeGuids w2R ∧
    (∀ pr ∈ (flatten_nodes "d" w2R none).2,
      [pr.1, pr.2].Sublist (((flatten_nodes "d" w2R none).1).map FlatNode.guid)) ∧
    (∀ pr ∈ (flatten_nodes "d" w2R none).2, pr.2 ≠ w2R.guid) :=
  c2_flatten_nodes_spec "d" w2R (by constructor <;> decide)

end LoadCodebase

namespace ImportNeo4j

theorem props_find?_map_set (m : Props) (k v k2 : String) :
    ((m.map (fun kv => if kv.1 == k then (k, v) else kv)).find? (fun kv => kv.1 == k2)) =
      (m.find? (fun kv => kv.1 == k2)).map (fun kv => if kv.1 == k then (k, v) else kv) := by
  induction m with
  | nil => rfl
  | cons a rest ih =>
    have hkey : ((if (a.1 == k) = true then (k, v) else a).1 == k2) = (a.1 == k2) := by
      by_cases h : (a.1 == k) = true
      · rw [if_pos h]
        have hk : a.1 = k := eq_of_beq h
        rw [hk]
      · rw [if_neg h]
    simp only [List.map_cons, List.find?_cons, hkey]
    cases h2 : (a.1 == k2) with
    | true => rfl
    | false => exact ih

theorem lookupProp_setProp_self (m : Props) (k v : String) :
    lookupProp (setProp m k v) k = some v := by
  rw [setProp]
  by_cases hany : (m.any fun kv => kv.1 == k) = true
  · rw [if_pos hany, lookupProp, props_find?_map_set]
    have hsome := List.find?_isSome.mpr (List.any_eq_true.mp hany)
    obtain ⟨b0, hb0⟩ := Option.isSome_iff_exists.mp hsome
    have hb0k := List.find?_some hb0
    rw [hb0]
    show some (if (b0.1 == k) = true then (k, v) else b0).2 = some v
    rw [if_pos hb0k]
  · rw [if_neg hany, lookupProp, List.find?_append]
    have hnone : m.find? (fun kv => kv.1 == k) = none := by
      rw [List.find?_eq_none]
      intro x hx hpx
      exact hany (List.any_eq_true.mpr ⟨x, hx, hpx⟩)
    rw [hnone]
    simp [List.find?_cons]

theorem lookupProp_setProp_ne (m : Props) (k v k2 : String) (h : k2 ≠ k) :
    lookupProp (setProp m k v) k2 = lookupProp m k2 := by
  rw [setProp]
  by_cases hany : (m.any fun kv => kv.1 == k) = true
  · rw [if_pos hany, lookupProp, lookupProp, props_find?_map_set]
    cases hf : m.find? (fun kv => kv.1 == k2) with
    | none => rfl
    | some b =>
      have hb' := List.find?_some hf
      have hb : b.1 = k2 := eq_of_beq hb'
      show some (if (b.1 == k) = true then (k, v) else b).2 = some b.2
      rw [if_neg (by rw [hb]; exact fun hc => h (eq_of_beq hc))]
  · rw [if_neg hany, lookupProp, lookupProp, List.find?_append]
    have h2 : List.find? (fun kv => kv.1 == k2) [(k, v)] = none := by
      simp only [List.find?_cons]
      have : (k == k2) = false := beq_eq_false_iff_ne.mpr (Ne.symm h)
      rw [this]
      rfl
    rw [h2, Option.or_none]

theorem lookupProp_setDefaultProp_ne (m : Props) (k v k2 : String) (h : k2 ≠ k) :
    lookupProp (setDefaultProp m k v) k2 = lookupProp m k2 := by
  rw [setDefaultProp]
  split
  · rfl
  · rw [lookupProp, lookupProp, List.find?_append]
    have h2 : List.find? (fun kv => kv.1 == k2) [(k, v)] = none := by
      simp only [List.find?_cons]
      have : (k == k2) = false := beq_eq_false_iff_ne.mpr (Ne.symm h)
      rw [this]
      rfl
    rw [h2, Option.or_none]

theorem updProps_cons (m : Props) (kv : String × String) (rest : Props) :
    updProps m (kv :: rest) = updProps (setProp m kv.1 kv.2) rest := rfl

theorem lookupProp_updProps_nokey (pr : Props) :
    ∀ m : Props, (∀ kv ∈ pr, kv.1 ≠ "GUID") →
      lookupProp (updProps m pr) "GUID" = lookupProp m "GUID" := by
  induction pr with
  | nil => intro m _; rfl
  | cons kv rest ih =>
    intro m h
    rw [updProps_cons, ih (setProp m kv.1 kv.2) (fun x hx => h x (List.mem_cons_of_mem _ hx))]
    exact lookupProp_setProp_ne m kv.1 kv.2 "GUID"
      (Ne.symm (h kv (List.mem_cons_self _ _)))

theorem lookupProp_updProps_guid (pr : Props) :
    ∀ (m : Props) (g : String), guidEntriesAll pr g → guidEntryHas pr →
      lookupProp (updProps m pr) "GUID" = some g := by
  induction pr with
  | nil =>
    intro m g _ hhas
    exact absurd hhas (by simp [guidEntryHas])
  | cons kv rest ih =>
    intro m g hall hhas
    by_cases hr : ∃ x ∈ rest, x.1 = "GUID"
    · rw [updProps_cons]
      exact ih _ g (fun x hx hx1 => hall x (List.mem_cons_of_mem _ hx) hx1) hr
    · push_neg at hr
      have hkv : kv.1 = "GUID" := by
        obtain ⟨x, hx, hx1⟩ := hhas
        rcases List.mem_cons.mp hx with rfl | hxr
        · exact hx1
        · exact absurd hx1 (hr x hxr)
      have hv : kv.2 = g := hall kv (List.mem_cons_self _ _) hkv
      rw [updProps_cons, lookupProp_updProps_nokey rest _ hr, hkv, hv]
      exact lookupProp_setProp_self m "GUID" g

theorem setProp_guid_facts (m : Props) (g : String) :
    guidEntriesAll (setProp m "GUID" g) g ∧ guidEntryHas (setProp m "GUID" g) := by
  rw [setProp]
  by_cases hany : (m.any fun kv => kv.1 == "GUID") = true
  · rw [if_pos hany]
    constructor
    · intro kv hkv hk1
      rw [List.mem_map] at hkv
      obtain ⟨a, _, rfl⟩ := hkv
      by_cases h : (a.1 == "GUID") = true
      · rw [if_pos h]
      · rw [if_neg h] at hk1 ⊢
        exact absurd (by rw [hk1]; exact beq_self_eq_true _) h
    · obtain ⟨a, ha, hpa⟩ := List.any_eq_true.mp hany
      refine ⟨("GUID", g), ?_, rfl⟩
      rw [List.mem_map]
      exact ⟨a, ha, by rw [if_pos hpa]⟩
  · rw [if_neg hany]
    constructor
    · intro kv hkv hk1
      rcases List.mem_append.mp hkv with h1 | h2
      · exact absurd (List.any_eq_true.mpr ⟨kv, h1, by rw [hk1]; exact beq_self_eq_true _⟩) hany
      · rw [List.mem_singleton.mp h2]
    · exact ⟨("GUID", g), List.mem_append_right _ (List.mem_singleton.mpr rfl), rfl⟩

theorem setDefaultProp_guid_facts (m : Props) (k v g : String) (hk : k ≠ "GUID")
    (h : guidEntriesAll m g ∧ guidEntryHas m) :
    guidEntriesAll (setDefaultProp m k v) g ∧ guidEntryHas (setDefaultProp m k v) := by
  rw [setDefaultProp]
  split
  · exact h
  · constructor
    · intro kv hkv hk1
      rcases List.mem_append.mp hkv with h1 | h2
      · exact h.1 kv h1 hk1
      · rw [List.mem_singleton.mp h2] at hk1
        exact absurd hk1 hk
    · obtain ⟨x, hx, hx1⟩ := h.2
      exact ⟨x, List.mem_append_left _ hx, hx1⟩

theorem buildNodeProps_guid_facts (p : NodePayload) :
    guidEntriesAll (buildNodeProps p) (nodeGuid p) ∧ guidEntryHas (buildNodeProps p) := by
  rw [buildNodeProps]
  cases hleg : p.neo4jId with
  | none => exact setProp_guid_facts p.properties (nodeGuid p)
  | some legacy =>
    exact setDefaultProp_guid_facts _ _ _ _ (by decide)
      (setProp_guid_facts p.properties (nodeGuid p))

theorem buildRelProps_guid_facts (e : EdgePayload) (g f t : String) :
    guidEntriesAll (buildRelProps e g f t) g ∧ guidEntryHas (buildRelProps e g f t) := by
  rw [buildRelProps]
  have h1 := setProp_guid_facts e.properties g
  have h2 := setDefaultProp_guid_facts _ "fromGUID" f g (by decide) h1
  have h3 := setDefaultProp_guid_facts _ "toGUID" t g (by decide) h2
  cases hleg : e.neo4jId with
  | none => exact h3
  | some legacy => exact setDefaultProp_guid_facts _ "legacyNeo4jId" legacy g (by decide) h3

end ImportNeo4j

namespace ImportNeo4j

theorem lookupProp_guid_of_facts (pr : Props) (g : String)
    (hall : guidEntriesAll pr g) (hhas : guidEntryHas pr) :
    lookupProp pr "GUID" = some g := by
  cases hf : pr.find? (fun kv => kv.1 == "GUID") with
  | none =>
    obtain ⟨x, hx, hx1⟩ := hhas
    have := List.find?_eq_none.mp hf x hx
    exact absurd (by rw [hx1]; exact beq_self_eq_true _) this
  | some b =>
    have hb' := List.find?_some hf
    have hbmem := List.mem_of_find?_eq_some hf
    have hb1 : b.1 = "GUID" := eq_of_beq hb'
    rw [lookupProp, hf]
    show some b.2 = some g
    rw [hall b hbmem hb1]

theorem merge_node_rels (st : Store) (p : NodePayload) :
    (merge_node st p).rels = st.rels := by
  simp only [merge_node]
  split <;> rfl

theorem merge_node_keys (st : Store) (p : NodePayload) :
    (merge_node st p).nodes.map nodeKey =
      st.nodes.map nodeKey ++
        (if st.nodes.any (nodeMatches (patternLabels p) (nodeGuid p)) then []
         else [(patternLabels p, some (nodeGuid p))]) := by
  simp only [merge_node]
  by_cases hany : st.nodes.any (nodeMatches (patternLabels p) (nodeGuid p)) = true
  · rw [if_pos hany, if_pos hany, List.append_nil]
    rw [List.map_map]
    refine List.map_congr_left ?_
    intro n _
    show nodeKey (if nodeMatches (patternLabels p) (nodeGuid p) n = true then
      { n with props := updProps n.props (buildNodeProps p) } else n) = nodeKey n
    by_cases hm : nodeMatches (patternLabels p) (nodeGuid p) n = true
    · rw [if_pos hm]
      have hfacts := buildNodeProps_guid_facts p
      have hlook := lookupProp_updProps_guid (buildNodeProps p) n.props (nodeGuid p)
        hfacts.1 hfacts.2
      have hold : lookupProp n.props "GUID" = some (nodeGuid p) := by
        rw [nodeMatches, Bool.and_eq_true] at hm
        exact eq_of_beq hm.2
      show (n.labels, lookupProp (updProps n.props (buildNodeProps p)) "GUID") =
        (n.labels, lookupProp n.props "GUID")
      rw [hlook, hold]
    · rw [if_neg hm]
  · rw [if_neg hany, if_neg hany, List.map_append]
    congr 1
    show [nodeKey ⟨patternLabels p, updProps [("GUID", nodeGuid p)] (buildNodeProps p)⟩] = _
    rw [nodeKey]
    have hfacts := buildNodeProps_guid_facts p
    rw [lookupProp_updProps_guid _ _ _ hfacts.1 hfacts.2]

theorem all_contains_self (L : List String) : (L.all fun l => L.contains l) = true := by
  rw [List.all_eq_true]
  intro x hx
  exact List.elem_iff.mpr hx

theorem any_map_general {α β : Type} (f : α → β) (l : List α) (p : β → Bool) :
    (l.map f).any p = l.any (fun x => p (f x)) := by
  induction l with
  | nil => rfl
  | cons a rest ih => simp [List.any_cons, ih]

theorem any_nodeMatches_of_keys {st st2 : Store} (L : List String) (g : String)
    (hext : ∃ ext, st2.nodes.map nodeKey = st.nodes.map nodeKey ++ ext)
    (h : st.nodes.any (nodeMatches L g) = true) :
    st2.nodes.any (nodeMatches L g) = true := by
  obtain ⟨ext, hext⟩ := hext
  have h1 : (st.nodes.map nodeKey).any (keyMatches L g) = true := by
    rw [any_map_general]
    exact h
  have h2 : (st2.nodes.map nodeKey).any (keyMatches L g) = true := by
    rw [hext, List.any_append, h1]
    rfl
  rw [any_map_general] at h2
  exact h2

theorem merge_node_match_self (st : Store) (p : NodePayload) :
    (merge_node st p).nodes.any (nodeMatches (patternLabels p) (nodeGuid p)) = true := by
  have hkeys := merge_node_keys st p
  by_cases hany : st.nodes.any (nodeMatches (patternLabels p) (nodeGuid p)) = true
  · exact any_nodeMatches_of_keys _ _ ⟨_, hkeys⟩ hany
  · have h2 : keyMatches (patternLabels p) (nodeGuid p)
        (patternLabels p, some (nodeGuid p)) = true := by
      rw [keyMatches, Bool.and_eq_true]
      exact ⟨all_contains_self _, beq_self_eq_true _⟩
    have h1 : ((merge_node st p).nodes.map nodeKey).any
        (keyMatches (patternLabels p) (nodeGuid p)) = true := by
      rw [hkeys, if_neg hany, List.any_append]
      have h3 : ([(patternLabels p, some (nodeGuid p))].any
          (keyMatches (patternLabels p) (nodeGuid p))) = true := by
        rw [List.any_cons, h2]
        rfl
      rw [h3, Bool.or_true]
    rw [any_map_general] at h1
    exact h1

/-- C10: the GUID property of every pre-existing store node is unchanged
by merge_node (matched nodes keep their merge key even when the payload
property map carries a conflicting GUID entry, because merge_node
overwrites that entry with the top-level identifier before merging), a
node created by the merge gets GUID property equal to the payload's
top-level identifier, and the property map passed to SET always carries
GUID equal to that identifier. -/
theorem c10_guid_prop_preserved (st : Store) (p : NodePayload) :
    lookupProp (buildNodeProps p) "GUID" = some (nodeGuid p) ∧
    guidProps (merge_node st p).nodes =
      guidProps st.nodes ++
        (if st.nodes.any (nodeMatches (patternLabels p) (nodeGuid p)) then []
         else [some (nodeGuid p)]) := by
  constructor
  · have hfacts := buildNodeProps_guid_facts p
    exact lookupProp_guid_of_facts _ _ hfacts.1 hfacts.2
  · have hsnd : ∀ ns : List StoreNode, guidProps ns = (ns.map nodeKey).map Prod.snd := by
      intro ns
      rw [guidProps, List.map_map]
      rfl
    rw [hsnd, hsnd, merge_node_keys st p, List.map_append]
    congr 1
    split <;> rfl

end ImportNeo4j

namespace ImportNeo4j

/-- C6: merge_relationship fails, with the missing-endpoint error naming
the edge's identifier, exactly when the payload's source or target
identifier is absent or empty; otherwise it succeeds.  The equivalence
holds for every store state, so the failure is independent of whether the
referenced nodes exist, and on failure the edge loop of main aborts
immediately with that error, before any merge of that edge and without
touching the remaining edges. -/
theorem c6_missing_endpoint_iff (st : Store) (e : EdgePayload) :
    (merge_relationship st e = .error (.missingEndpoint (e.GUID.getD "")) ↔
      (guidOk e.fromGUID = false ∨ guidOk e.toGUID = false)) ∧
    ((∃ st2, merge_relationship st e = .ok st2) ↔
      (guidOk e.fromGUID = true ∧ guidOk e.toGUID = true)) ∧
    (guidOk e.GUID = true → (guidOk e.fromGUID = false ∨ guidOk e.toGUID = false) →
      ∀ rest : List EdgePayload,
        goEdges st (e :: rest) = .error (.missingEndpoint (e.GUID.getD ""))) := by
  cases hf : guidOk e.fromGUID <;> cases ht : guidOk e.toGUID <;>
    simp [merge_relationship, goEdges, hf, ht]

/-- C6 witness: the endpoint check evaluated on a concrete edge whose
source identifier is absent, against the empty store. -/
theorem c6_missing_endpoint_iff_witness :
    merge_relationship emptyStore ⟨some "e9", some "T", none, some "b", [], none⟩ =
      .error (.missingEndpoint "e9") ∧
    goEdges emptyStore [⟨some "e9", some "T", none, some "b", [], none⟩,
      ⟨some "e8", some "T", some "a", some "b", [], none⟩] =
      .error (.missingEndpoint "e9") := by
  obtain ⟨h1, _, h3⟩ :=
    c6_missing_endpoint_iff emptyStore ⟨some "e9", some "T", none, some "b", [], none⟩
  exact ⟨h1.mpr (Or.inl rfl), h3 rfl (Or.inl rfl) _⟩

end ImportNeo4j

namespace ImportNeo4j

theorem mergeRelApply_nodes (st : Store) (e : EdgePayload) :
    (mergeRelApply st e).nodes = st.nodes := rfl

theorem relMatches_iff_key (s t : Nat) (ty g : String) (r : StoreRel) :
    relMatches s t ty g r = true ↔ relKey r = (s, t, ty, some g) := by
  rw [relMatches, relKey]
  simp [Bool.and_eq_true, beq_iff_eq, Prod.mk.injEq, and_assoc]

theorem any_relMatches_iff_mem (rs : List StoreRel) (s t : Nat) (ty g : String) :
    rs.any (relMatches s t ty g) = true ↔ (s, t, ty, some g) ∈ rs.map relKey := by
  rw [List.any_eq_true]
  constructor
  · rintro ⟨r, hr, hm⟩
    exact List.mem_map.mpr ⟨r, hr, (relMatches_iff_key s t ty g r).mp hm⟩
  · intro hmem
    obtain ⟨r, hr, heq⟩ := List.mem_map.mp hmem
    exact ⟨r, hr, (relMatches_iff_key s t ty g r).mpr heq⟩

theorem mergeRelRow_keys (rs : List StoreRel) (s t : Nat) (ty g : String) (pr : Props)
    (hall : guidEntriesAll pr g) (hhas : guidEntryHas pr) :
    (mergeRelRow rs s t ty g pr).map relKey =
      rs.map relKey ++
        (if rs.any (relMatches s t ty g) then [] else [(s, t, ty, some g)]) := by
  rw [mergeRelRow]
  by_cases hany : rs.any (relMatches s t ty g) = true
  · rw [if_pos hany, if_pos hany, List.append_nil, List.map_map]
    refine List.map_congr_left ?_
    intro r _
    show relKey (if relMatches s t ty g r = true then
      { r with props := updProps r.props pr } else r) = relKey r
    by_cases hm : relMatches s t ty g r = true
    · rw [if_pos hm]
      have hkey := (relMatches_iff_key s t ty g r).mp hm
      rw [relKey] at hkey
      simp only [Prod.mk.injEq] at hkey
      have hlook := lookupProp_updProps_guid pr r.props g hall hhas
      show (r.src, r.tgt, r.type, lookupProp (updProps r.props pr) "GUID") =
        (r.src, r.tgt, r.type, lookupProp r.props "GUID")
      rw [hlook, hkey.2.2.2]
    · rw [if_neg hm]
  · rw [if_neg hany, if_neg hany, List.map_append]
    congr 1
    show [relKey ⟨s, t, ty, updProps [("GUID", g)] pr⟩] = _
    rw [relKey, lookupProp_updProps_guid pr _ g hall hhas]

theorem mergeRelRow_has_key (rs : List StoreRel) (s t : Nat) (ty g : String) (pr : Props)
    (hall : guidEntriesAll pr g) (hhas : guidEntryHas pr) :
    (s, t, ty, some g) ∈ (mergeRelRow rs s t ty g pr).map relKey := by
  rw [mergeRelRow_keys rs s t ty g pr hall hhas]
  by_cases hany : rs.any (relMatches s t ty g) = true
  · rw [if_pos hany, List.append_nil]
    exact (any_relMatches_iff_mem rs s t ty g).mp hany
  · rw [if_neg hany]
    exact List.mem_append_right _ (List.mem_singleton.mpr rfl)

theorem rowFold_keys_extend (ty g : String) (pr : Props)
    (hall : guidEntriesAll pr g) (hhas : guidEntryHas pr) :
    ∀ (rows : List (Nat × Nat)) (rs : List StoreRel),
      ∃ ext, ((rows.foldl (fun rs row => mergeRelRow rs row.1 row.2 ty g pr) rs).map relKey) =
        rs.map relKey ++ ext := by
  intro rows
  induction rows with
  | nil => intro rs; exact ⟨[], (List.append_nil _).symm⟩
  | cons row rest ih =>
    intro rs
    obtain ⟨ext2, h2⟩ := ih (mergeRelRow rs row.1 row.2 ty g pr)
    refine ⟨(if rs.any (relMatches row.1 row.2 ty g) then []
      else [(row.1, row.2, ty, some g)]) ++ ext2, ?_⟩
    rw [List.foldl_cons, h2, mergeRelRow_keys rs row.1 row.2 ty g pr hall hhas,
      List.append_assoc]

theorem rowFold_all_rows (ty g : String) (pr : Props)
    (hall : guidEntriesAll pr g) (hhas : guidEntryHas pr) :
    ∀ (rows : List (Nat × Nat)) (rs : List StoreRel), ∀ row ∈ rows,
      (row.1, row.2, ty, some g) ∈
        ((rows.foldl (fun rs row => mergeRelRow rs row.1 row.2 ty g pr) rs).map relKey) := by
  intro rows
  induction rows with
  | nil => intro rs row hrow; exact absurd hrow (List.not_mem_nil row)
  | cons r1 rest ih =>
    intro rs row hrow
    rw [List.foldl_cons]
    rcases List.mem_cons.mp hrow with rfl | hr
    · obtain ⟨ext, hext⟩ := rowFold_keys_extend ty g pr hall hhas rest
        (mergeRelRow rs row.1 row.2 ty g pr)
      rw [hext]
      exact List.mem_append_left _ (mergeRelRow_has_key rs row.1 row.2 ty g pr hall hhas)
    · exact ih _ row hr

theorem rowFold_preserve (ty g : String) (pr : Props)
    (hall : guidEntriesAll pr g) (hhas : guidEntryHas pr) :
    ∀ (rows : List (Nat × Nat)) (rs : List StoreRel),
      (∀ row ∈ rows, (row.1, row.2, ty, some g) ∈ rs.map relKey) →
      ((rows.foldl (fun rs row => mergeRelRow rs row.1 row.2 ty g pr) rs).map relKey) =
        rs.map relKey := by
  intro rows
  induction rows with
  | nil => intro rs _; rfl
  | cons r1 rest ih =>
    intro rs hrows
    have h1 : rs.any (relMatches r1.1 r1.2 ty g) = true :=
      (any_relMatches_iff_mem rs r1.1 r1.2 ty g).mpr (hrows r1 (List.mem_cons_self _ _))
    have hstep : (mergeRelRow rs r1.1 r1.2 ty g pr).map relKey = rs.map relKey := by
      rw [mergeRelRow_keys rs r1.1 r1.2 ty g pr hall hhas, if_pos h1, List.append_nil]
    rw [List.foldl_cons,
      ih (mergeRelRow rs r1.1 r1.2 ty g pr) (fun row hrow => by
        rw [hstep]
        exact hrows row (List.mem_cons_of_mem _ hrow)),
      hstep]

theorem mergeRelApply_keys_extend (st : Store) (e : EdgePayload) :
    ∃ ext, (mergeRelApply st e).rels.map relKey = st.rels.map relKey ++ ext := by
  have hfacts := buildRelProps_guid_facts e (e.GUID.getD "")
    (e.fromGUID.getD "") (e.toGUID.getD "")
  simp only [mergeRelApply]
  exact rowFold_keys_extend _ _ _ hfacts.1 hfacts.2 _ st.rels

theorem mergeRelApply_rows_present (st : Store) (e : EdgePayload) :
    ∀ row ∈ rowsOf st.nodes (e.fromGUID.getD "") (e.toGUID.getD ""),
      (row.1, row.2, relTypeOf e, some (e.GUID.getD "")) ∈
        (mergeRelApply st e).rels.map relKey := by
  have hfacts := buildRelProps_guid_facts e (e.GUID.getD "")
    (e.fromGUID.getD "") (e.toGUID.getD "")
  intro row hrow
  simp only [mergeRelApply]
  exact rowFold_all_rows _ _ _ hfacts.1 hfacts.2 _ st.rels row hrow

theorem mergeRelApply_preserve (st : Store) (e : EdgePayload) (h : edgeRowKeysOk st e) :
    (mergeRelApply st e).rels.map relKey = st.rels.map relKey := by
  have hfacts := buildRelProps_guid_facts e (e.GUID.getD "")
    (e.fromGUID.getD "") (e.toGUID.getD "")
  simp only [mergeRelApply]
  exact rowFold_preserve _ _ _ hfacts.1 hfacts.2 _ st.rels h

end ImportNeo4j

namespace ImportNeo4j

theorem nodesPure_keys_extend (ns : List NodePayload) :
    ∀ st : Store,
      (∃ ext, (nodesPure st ns).nodes.map nodeKey = st.nodes.map nodeKey ++ ext) ∧
      (nodesPure st ns).rels = st.rels := by
  induction ns with
  | nil => intro st; exact ⟨⟨[], (List.append_nil _).symm⟩, rfl⟩
  | cons n rest ih =>
    intro st
    obtain ⟨⟨ext2, h2⟩, hr⟩ := ih (merge_node st n)
    constructor
    · refine ⟨(if st.nodes.any (nodeMatches (patternLabels n) (nodeGuid n)) then []
        else [(patternLabels n, some (nodeGuid n))]) ++ ext2, ?_⟩
      show (nodesPure (merge_node st n) rest).nodes.map nodeKey = _
      rw [h2, merge_node_keys st n, List.append_assoc]
    · show (nodesPure (merge_node st n) rest).rels = st.rels
      rw [hr, merge_node_rels]

theorem edgesPure_nodes_eq (es : List EdgePayload) :
    ∀ st : Store, (edgesPure st es).nodes = st.nodes := by
  induction es with
  | nil => intro st; rfl
  | cons e rest ih =>
    intro st
    show (edgesPure (mergeRelApply st e) rest).nodes = st.nodes
    rw [ih, mergeRelApply_nodes]

theorem edgesPure_keys_extend (es : List EdgePayload) :
    ∀ st : Store, ∃ ext, (edgesPure st es).rels.map relKey = st.rels.map relKey ++ ext := by
  induction es with
  | nil => intro st; exact ⟨[], (List.append_nil _).symm⟩
  | cons e rest ih =>
    intro st
    obtain ⟨ext2, h2⟩ := ih (mergeRelApply st e)
    obtain ⟨ext1, h1⟩ := mergeRelApply_keys_extend st e
    refine ⟨ext1 ++ ext2, ?_⟩
    show (edgesPure (mergeRelApply st e) rest).rels.map relKey = _
    rw [h2, h1, List.append_assoc]

theorem nodesPure_all_match (ns : List NodePayload) :
    ∀ st : Store, ∀ p ∈ ns,
      (nodesPure st ns).nodes.any (nodeMatches (patternLabels p) (nodeGuid p)) = true := by
  induction ns with
  | nil => intro st p hp; exact absurd hp (List.not_mem_nil p)
  | cons n rest ih =>
    intro st p hp
    rcases List.mem_cons.mp hp with rfl | hr
    · show (nodesPure (merge_node st p) rest).nodes.any _ = true
      exact any_nodeMatches_of_keys _ _
        ((nodesPure_keys_extend rest (merge_node st p)).1)
        (merge_node_match_self st p)
    · exact ih (merge_node st n) p hr

theorem guidProps_as_keys (ns : List StoreNode) :
    guidProps ns = (ns.map nodeKey).map Prod.snd := by
  rw [guidProps, List.map_map]
  rfl

theorem guidIdxs_congr (n1 n2 : List StoreNode) (h : guidProps n1 = guidProps n2)
    (g : String) : guidIdxs n1 g = guidIdxs n2 g := by
  have hlen : n1.length = n2.length := by
    have h2 := congrArg List.length h
    simpa [guidProps] using h2
  rw [guidIdxs, guidIdxs, h, hlen]

theorem rowsOf_congr (n1 n2 : List StoreNode) (h : guidProps n1 = guidProps n2)
    (f t : String) : rowsOf n1 f t = rowsOf n2 f t := by
  rw [rowsOf, rowsOf, guidIdxs_congr n1 n2 h f, guidIdxs_congr n1 n2 h t]

theorem edgesPure_rows_ok (es : List EdgePayload) :
    ∀ st : Store, ∀ e ∈ es, edgeRowKeysOk (edgesPure st es) e := by
  induction es with
  | nil => intro st e he; exact absurd he (List.not_mem_nil e)
  | cons e1 rest ih =>
    intro st e he
    rcases List.mem_cons.mp he with rfl | hr
    · intro row hrow
      have hn : (edgesPure (mergeRelApply st e) rest).nodes = st.nodes :=
        (edgesPure_nodes_eq rest (mergeRelApply st e)).trans (mergeRelApply_nodes st e)
      rw [show (edgesPure st (e :: rest)) = edgesPure (mergeRelApply st e) rest from rfl,
        hn] at hrow
      obtain ⟨ext, hext⟩ := edgesPure_keys_extend rest (mergeRelApply st e)
      show _ ∈ (edgesPure (mergeRelApply st e) rest).rels.map relKey
      rw [hext]
      exact List.mem_append_left _ (mergeRelApply_rows_present st e row hrow)
    · exact ih (mergeRelApply st e1) e hr

theorem nodesPure_noop (ns : List NodePayload) :
    ∀ st : Store,
      (∀ p ∈ ns, st.nodes.any (nodeMatches (patternLabels p) (nodeGuid p)) = true) →
      (nodesPure st ns).nodes.map nodeKey = st.nodes.map nodeKey ∧
      (nodesPure st ns).rels = st.rels := by
  induction ns with
  | nil => intro st _; exact ⟨rfl, rfl⟩
  | cons n rest ih =>
    intro st hmatch
    have hn := hmatch n (List.mem_cons_self _ _)
    have hkeys : (merge_node st n).nodes.map nodeKey = st.nodes.map nodeKey := by
      rw [merge_node_keys, if_pos hn, List.append_nil]
    have hrest := ih (merge_node st n) (fun p hp =>
      any_nodeMatches_of_keys _ _ ⟨[], by rw [hkeys, List.append_nil]⟩
        (hmatch p (List.mem_cons_of_mem _ hp)))
    exact ⟨hrest.1.trans hkeys, hrest.2.trans (merge_node_rels st n)⟩

theorem edgesPure_noop (es : List EdgePayload) :
    ∀ st : Store, (∀ e ∈ es, edgeRowKeysOk st e) →
      (edgesPure st es).rels.map relKey = st.rels.map relKey ∧
      (edgesPure st es).nodes = st.nodes := by
  induction es with
  | nil => intro st _; exact ⟨rfl, rfl⟩
  | cons e1 rest ih =>
    intro st hok
    have h1 : (mergeRelApply st e1).rels.map relKey = st.rels.map relKey :=
      mergeRelApply_preserve st e1 (hok e1 (List.mem_cons_self _ _))
    have hnodes : (mergeRelApply st e1).nodes = st.nodes := mergeRelApply_nodes st e1
    have hrest := ih (mergeRelApply st e1) (fun e he row hrow => by
      rw [hnodes] at hrow
      rw [h1]
      exact hok e (List.mem_cons_of_mem _ he) row hrow)
    exact ⟨hrest.1.trans h1, hrest.2.trans hnodes⟩

theorem goNodes_ok_iff (ns : List NodePayload) :
    ∀ st st2 : Store, goNodes st ns = .ok st2 →
      ((ns.all fun n => guidOk n.GUID) = true ∧ st2 = nodesPure st ns) := by
  induction ns with
  | nil =>
    intro st st2 h
    simp only [goNodes, Except.ok.injEq] at h
    subst h
    exact ⟨rfl, rfl⟩
  | cons n rest ih =>
    intro st st2 h
    simp only [goNodes] at h
    by_cases hg : guidOk n.GUID = true
    · rw [if_pos hg] at h
      obtain ⟨hall, hst⟩ := ih _ _ h
      refine ⟨?_, hst⟩
      rw [List.all_cons, hg, hall]
      rfl
    · rw [if_neg hg] at h
      exact Except.noConfusion h

theorem goNodes_of_all (ns : List NodePayload) :
    ∀ st : Store, (ns.all fun n => guidOk n.GUID) = true →
      goNodes st ns = .ok (nodesPure st ns) := by
  induction ns with
  | nil => intro st _; rfl
  | cons n rest ih =>
    intro st hall
    rw [List.all_cons, Bool.and_eq_true] at hall
    simp only [goNodes]
    rw [if_pos hall.1]
    exact ih (merge_node st n) hall.2

theorem merge_relationship_ok_of (e : EdgePayload) (hf : guidOk e.fromGUID = true)
    (ht : guidOk e.toGUID = true) (st : Store) :
    merge_relationship st e = .ok (mergeRelApply st e) := by
  simp [merge_relationship, hf, ht]

theorem merge_relationship_cases (st : Store) (e : EdgePayload) (st2 : Store)
    (h : merge_relationship st e = .ok st2) :
    guidOk e.fromGUID = true ∧ guidOk e.toGUID = true ∧ st2 = mergeRelApply st e := by
  rw [merge_relationship] at h
  by_cases hc : (!guidOk e.fromGUID || !guidOk e.toGUID) = true
  · rw [if_pos hc] at h
    exact Except.noConfusion h
  · rw [if_neg hc] at h
    have hboth : guidOk e.fromGUID = true ∧ guidOk e.toGUID = true := by
      cases hf : guidOk e.fromGUID <;> cases ht : guidOk e.toGUID <;> simp_all
    simp only [Except.ok.injEq] at h
    exact ⟨hboth.1, hboth.2, h.symm⟩

theorem goEdges_ok_iff (es : List EdgePayload) :
    ∀ st st2 : Store, goEdges st es = .ok st2 →
      ((es.all fun e => guidOk e.GUID && guidOk e.fromGUID && guidOk e.toGUID) = true ∧
        st2 = edgesPure st es) := by
  induction es with
  | nil =>
    intro st st2 h
    simp only [goEdges, Except.ok.injEq] at h
    subst h
    exact ⟨rfl, rfl⟩
  | cons e rest ih =>
    intro st st2 h
    simp only [goEdges] at h
    by_cases hg : guidOk e.GUID = true
    · rw [if_pos hg] at h
      cases hm : merge_relationship st e with
      | error err => rw [hm] at h; exact Except.noConfusion h
      | ok stm =>
        rw [hm] at h
        obtain ⟨hf, ht, hstm⟩ := merge_relationship_cases st e stm hm
        obtain ⟨hall, hst⟩ := ih _ _ h
        subst hstm
        refine ⟨?_, hst⟩
        rw [List.all_cons, hall, hg, hf, ht]
        rfl
    · rw [if_neg hg] at h
      exact Except.noConfusion h

theorem goEdges_of_all (es : List EdgePayload) :
    ∀ st : Store,
      (es.all fun e => guidOk e.GUID && guidOk e.fromGUID && guidOk e.toGUID) = true →
      goEdges st es = .ok (edgesPure st es) := by
  induction es with
  | nil => intro st _; rfl
  | cons e rest ih =>
    intro st hall
    rw [List.all_cons, Bool.and_eq_true] at hall
    obtain ⟨he, hrest⟩ := hall
    rw [Bool.and_eq_true, Bool.and_eq_true] at he
    simp only [goEdges]
    rw [if_pos he.1.1, merge_relationship_ok_of e he.1.2 he.2 st]
    exact ih (mergeRelApply st e) hrest

theorem importAll_ok_iff (S T : Store) (P : Payload) (h : importAll S P = .ok T) :
    payloadOk P = true ∧ T = importPure S P := by
  rw [importAll] at h
  cases hn : goNodes S P.nodes with
  | error err => rw [hn] at h; exact Except.noConfusion h
  | ok S1 =>
    rw [hn] at h
    obtain ⟨halln, hS1⟩ := goNodes_ok_iff P.nodes S S1 hn
    obtain ⟨halle, hT⟩ := goEdges_ok_iff P.edges S1 T h
    subst hS1
    refine ⟨?_, hT⟩
    rw [payloadOk, halln, halle]
    rfl

theorem importAll_of_payloadOk (S : Store) (P : Payload) (h : payloadOk P = true) :
    importAll S P = .ok (importPure S P) := by
  rw [payloadOk, Bool.and_eq_true] at h
  rw [importAll, goNodes_of_all P.nodes S h.1]
  exact goEdges_of_all P.edges _ h.2

end ImportNeo4j

namespace ImportNeo4j

/-- C1 counterexample: importing c1Payload (two node records sharing one
identifier but carrying different label sets) into the empty store once
gives c1Once; importing it again succeeds but yields c1Twice, which
differs from c1Once: the re-run copies the property y onto the second
node, whose label set subsumes the first record's MERGE pattern.  Node
MERGE is keyed on the label set together with the identifier, not solely
on the identifier, so re-running an identical payload can change the
store state (the node and edge counts stay unchanged). -/
theorem c1_reimport_changes_state :
    importAll emptyStore c1Payload = .ok c1Once ∧
    importAll c1Once c1Payload = .ok c1Twice ∧
    c1Twice ≠ c1Once :=
  ⟨rfl, rfl, by decide⟩

/-- C1 amended: whenever importAll succeeds on a payload, re-running it
against the resulting store succeeds again and leaves the node count and
the edge count unchanged (each node merge finds a match and only updates,
each edge MERGE row finds its relationship and only updates), even though
the full store state may differ when the payload repeats an identifier
under different label sets. -/
theorem c1_reimport_preserves_counts (S T : Store) (P : Payload)
    (h : importAll S P = .ok T) :
    importAll T P = .ok (importPure T P) ∧
    (importPure T P).nodes.length = T.nodes.length ∧
    (importPure T P).rels.length = T.rels.length := by
  obtain ⟨hok, hT⟩ := importAll_ok_iff S T P h
  have hTnodes : T.nodes = (nodesPure S P.nodes).nodes := by
    rw [hT]
    exact edgesPure_nodes_eq P.edges (nodesPure S P.nodes)
  have hF1 : ∀ p ∈ P.nodes,
      T.nodes.any (nodeMatches (patternLabels p) (nodeGuid p)) = true := by
    intro p hp
    rw [hTnodes]
    exact nodesPure_all_match P.nodes S p hp
  have hW := nodesPure_noop P.nodes T hF1
  have hF2 : ∀ e ∈ P.edges, edgeRowKeysOk T e := by
    intro e he
    rw [hT]
    exact edgesPure_rows_ok P.edges (nodesPure S P.nodes) e he
  have hF2W : ∀ e ∈ P.edges, edgeRowKeysOk (nodesPure T P.nodes) e := by
    intro e he row hrow
    have hg : guidProps (nodesPure T P.nodes).nodes = guidProps T.nodes := by
      rw [guidProps_as_keys, guidProps_as_keys, hW.1]
    rw [rowsOf_congr _ _ hg] at hrow
    rw [hW.2]
    exact hF2 e he row hrow
  have hfin := edgesPure_noop P.edges (nodesPure T P.nodes) hF2W
  have h2 := congrArg List.length hW.1
  rw [List.length_map, List.length_map] at h2
  have h3 := congrArg List.length hfin.1
  rw [List.length_map, List.length_map] at h3
  refine ⟨importAll_of_payloadOk T P hok, ?_, ?_⟩
  · show (edgesPure (nodesPure T P.nodes) P.edges).nodes.length = T.nodes.length
    rw [hfin.2]
    exact h2
  · show (edgesPure (nodesPure T P.nodes) P.edges).rels.length = T.rels.length
    exact h3.trans (congrArg List.length hW.2)

/-- C1 witness: the count-preservation theorem evaluated on a one-node,
one-edge payload imported twice starting from the empty store. -/
theorem c1_reimport_preserves_counts_witness :
    importAll (importPure emptyStore w1Payload) w1Payload =
      .ok (importPure (importPure emptyStore w1Payload) w1Payload) ∧
    (importPure (importPure emptyStore w1Payload) w1Payload).nodes.length =
      (importPure emptyStore w1Payload).nodes.length ∧
    (importPure (importPure emptyStore w1Payload) w1Payload).rels.length =
      (importPure emptyStore w1Payload).rels.length :=
  c1_reimport_preserves_counts emptyStore (importPure emptyStore w1Payload) w1Payload rfl

end ImportNeo4j
